import Mathlib

/-!
Verification model of the rustnlp UDP discovery protocol
(`src/udp_broadcast.rs` and the discovery client examples).

Strings coming off the wire are modelled as `List Char`; machine integers
are `Nat` with explicit bounds where they matter.  Fallible parsing returns
`Option`.  All definitions are executable (structural recursion only), so
concrete runs can be evaluated with `decide` / `rfl`.
-/

namespace Rustnlp

/-! ## Basic string (List Char) utilities -/

/-- Model of Rust `str::starts_with`: `startsList pat hay` is true when
`pat` is an initial segment of `hay`. -/
def startsList : List Char → List Char → Bool
  | [], _ => true
  | _ :: _, [] => false
  | p :: ps, h :: hs => p = h && startsList ps hs

/-- Model of Rust `str::contains` for an ASCII needle: substring test. -/
def containsSub (pat : List Char) : List Char → Bool
  | [] => startsList pat []
  | c :: t => startsList pat (c :: t) || containsSub pat t

theorem startsList_iff (pat hay : List Char) :
    startsList pat hay = true ↔ ∃ rest, hay = pat ++ rest := by
  induction pat generalizing hay with
  | nil => simp [startsList]
  | cons p ps ih =>
    cases hay with
    | nil => simp [startsList]
    | cons h hs =>
      simp only [startsList, Bool.and_eq_true, decide_eq_true_eq, ih,
        List.cons_append, List.cons.injEq]
      constructor
      · rintro ⟨rfl, rest, rfl⟩; exact ⟨rest, rfl, rfl⟩
      · rintro ⟨rest, rfl, rfl⟩; exact ⟨rfl, rest, rfl⟩

theorem containsSub_iff (pat hay : List Char) :
    containsSub pat hay = true ↔ ∃ a b, hay = a ++ pat ++ b := by
  induction hay with
  | nil =>
    simp only [containsSub, startsList_iff]
    constructor
    · rintro ⟨rest, h⟩
      rcases List.append_eq_nil.mp h.symm with ⟨h1, h2⟩
      exact ⟨[], [], by simp [h1]⟩
    · rintro ⟨a, b, h⟩
      rcases List.append_eq_nil.mp h.symm with ⟨h1, h2⟩
      rcases List.append_eq_nil.mp h1 with ⟨h3, h4⟩
      exact ⟨[], by simp [h4]⟩
  | cons c t ih =>
    simp only [containsSub, Bool.or_eq_true, startsList_iff, ih]
    constructor
    · rintro (⟨rest, h⟩ | ⟨a, b, h⟩)
      · exact ⟨[], rest, by simpa using h⟩
      · exact ⟨c :: a, b, by simp [h]⟩
    · rintro ⟨a, b, h⟩
      cases a with
      | nil => exact Or.inl ⟨b, by simpa using h⟩
      | cons a0 as =>
        simp only [List.cons_append, List.cons.injEq] at h
        exact Or.inr ⟨as, b, h.2⟩

/-! ## Decimal rendering of naturals (Rust `format!("{}", n)` for integers) -/

/-- ASCII decimal digit test (`0`..`9`). -/
def isDigitChar (c : Char) : Bool := decide (48 ≤ c.toNat) && decide (c.toNat ≤ 57)

/-- The decimal digit character for `m` (meaningful for `m < 10`). -/
def decDigit (m : Nat) : Char :=
  match m with
  | 0 => '0' | 1 => '1' | 2 => '2' | 3 => '3' | 4 => '4'
  | 5 => '5' | 6 => '6' | 7 => '7' | 8 => '8' | _ => '9'

/-- Fuelled digit accumulation (fuel bounds the number of divisions). -/
def natCharsGo (fuel : Nat) (n : Nat) (acc : List Char) : List Char :=
  match fuel with
  | 0 => decDigit (n % 10) :: acc
  | f + 1 =>
    if n < 10 then decDigit n :: acc
    else natCharsGo f (n / 10) (decDigit (n % 10) :: acc)

/-- Decimal rendering of a natural number, most significant digit first. -/
def natChars (n : Nat) : List Char := natCharsGo n n []

/-- Digit-run accumulation as performed by a left-to-right number scanner. -/
def digitFold (v : Nat) (ds : List Char) : Nat :=
  ds.foldl (fun a c => a * 10 + (c.toNat - 48)) v

theorem decDigit_isDigit (m : Nat) (h : m < 10) : isDigitChar (decDigit m) = true := by
  interval_cases m <;> decide

theorem decDigit_toNat (m : Nat) (h : m < 10) : (decDigit m).toNat - 48 = m := by
  interval_cases m <;> decide

theorem digitFold_append (v : Nat) (xs ys : List Char) :
    digitFold v (xs ++ ys) = digitFold (digitFold v xs) ys := by
  simp [digitFold]

theorem natCharsGo_spec (f : Nat) :
    ∀ n acc, n ≤ f →
      ∃ ds, natCharsGo f n acc = ds ++ acc ∧ ds ≠ [] ∧
        (∀ c ∈ ds, isDigitChar c = true) ∧
        ∀ v, digitFold v ds = v * 10 ^ ds.length + n := by
  induction f with
  | zero =>
    intro n acc hn
    have hn0 : n = 0 := Nat.le_zero.mp hn
    subst hn0
    refine ⟨[decDigit 0], rfl, by simp, ?_, ?_⟩
    · intro c hc
      simp only [List.mem_singleton] at hc
      subst hc
      exact decDigit_isDigit _ (by omega)
    · intro v
      simp [digitFold, decDigit_toNat 0 (by omega)]
  | succ f ih =>
    intro n acc hn
    by_cases hlt : n < 10
    · refine ⟨[decDigit n], by simp [natCharsGo, hlt], by simp, ?_, ?_⟩
      · intro c hc
        simp only [List.mem_singleton] at hc
        subst hc
        exact decDigit_isDigit _ hlt
      · intro v
        simp [digitFold, decDigit_toNat n hlt]
    · have hdiv : n / 10 ≤ f := by
        have h1 : n / 10 < n := Nat.div_lt_self (by omega) (by omega)
        omega
      obtain ⟨ds, hds, hne, hdig, hfold⟩ := ih (n / 10) (decDigit (n % 10) :: acc) hdiv
      have hd : (decDigit (n % 10)).toNat - 48 = n % 10 :=
        decDigit_toNat _ (Nat.mod_lt _ (by omega))
      refine ⟨ds ++ [decDigit (n % 10)], ?_, by simp, ?_, ?_⟩
      · simp only [natCharsGo, hlt, if_false, hds, List.append_assoc,
          List.singleton_append]
      · intro c hc
        rcases List.mem_append.mp hc with h | h
        · exact hdig c h
        · simp only [List.mem_singleton] at h
          subst h
          exact decDigit_isDigit _ (Nat.mod_lt _ (by omega))
      · intro v
        rw [digitFold_append, hfold v]
        simp only [digitFold, List.foldl_cons, List.foldl_nil, List.length_append,
          List.length_cons, List.length_nil, hd]
        have hp : 10 ^ (ds.length + (0 + 1)) = 10 ^ ds.length * 10 := by
          rw [Nat.zero_add, Nat.pow_succ]
        rw [hp]
        have hmod : n % 10 + n / 10 * 10 = n := by omega
        calc (v * 10 ^ ds.length + n / 10) * 10 + (n % 10)
            = v * (10 ^ ds.length * 10) + (n / 10 * 10 + n % 10) := by ring
          _ = v * (10 ^ ds.length * 10) + n := by omega

/-- Properties of the decimal rendering: nonempty, all digits, and a
left-to-right digit scan recovers the value. -/
theorem natChars_spec (n : Nat) :
    natChars n ≠ [] ∧ (∀ c ∈ natChars n, isDigitChar c = true) ∧
      digitFold 0 (natChars n) = n := by
  obtain ⟨ds, hds, hne, hdig, hfold⟩ := natCharsGo_spec n n [] (Nat.le_refl n)
  have h1 : natChars n = ds := by simpa [natChars] using hds
  rw [h1]
  exact ⟨hne, hdig, by simpa using hfold 0⟩

/-! ## The 1024-byte receive buffer

Every receive path in the repository reads a datagram with
`let mut buf = [0; 1024]; socket.recv_from(&mut buf)` and then decodes
`&buf[..amt]` with `String::from_utf8_lossy`.  A datagram longer than 1024
bytes is truncated at byte 1024; a multi-byte UTF-8 character cut at the
boundary is replaced by U+FFFD by the lossy decoding. -/

/-- Total UTF-8 byte size of a character sequence. -/
def byteSize (cs : List Char) : Nat := (cs.map Char.utf8Size).sum

/-- Lossy decoding of the first `n` bytes of the UTF-8 encoding of `cs`:
characters that fit whole are kept; a character cut by the boundary
becomes a single U+FFFD replacement character and ends the text. -/
def recvChars (n : Nat) : List Char → List Char
  | [] => []
  | c :: t =>
    if c.utf8Size ≤ n then c :: recvChars (n - c.utf8Size) t
    else if 0 < n then ['�'] else []

theorem byteSize_append (xs ys : List Char) :
    byteSize (xs ++ ys) = byteSize xs + byteSize ys := by
  simp [byteSize]

theorem byteSize_cons (c : Char) (t : List Char) :
    byteSize (c :: t) = c.utf8Size + byteSize t := by
  simp [byteSize]

theorem recvChars_all (n : Nat) (cs : List Char) :
    byteSize cs ≤ n → recvChars n cs = cs := by
  induction cs generalizing n with
  | nil => intro _; rfl
  | cons c t ih =>
    intro h
    rw [byteSize_cons] at h
    have h1 : c.utf8Size ≤ n := by omega
    simp only [recvChars, h1, if_true]
    rw [ih (n - c.utf8Size) (by omega)]

theorem recvChars_append (n : Nat) (xs ys : List Char) (h : byteSize xs ≤ n) :
    recvChars n (xs ++ ys) = xs ++ recvChars (n - byteSize xs) ys := by
  induction xs generalizing n with
  | nil => simp [byteSize]
  | cons c t ih =>
    rw [byteSize_cons] at h
    have h1 : c.utf8Size ≤ n := by omega
    have h2 : byteSize t ≤ n - c.utf8Size := by omega
    show recvChars n (c :: (t ++ ys)) = (c :: t) ++ recvChars (n - byteSize (c :: t)) ys
    simp only [recvChars, h1, if_true, ih _ h2, List.cons_append, byteSize_cons]
    have h3 : n - c.utf8Size - byteSize t = n - (c.utf8Size + byteSize t) := by omega
    rw [h3]

theorem recvChars_idem (n : Nat) (cs : List Char) :
    recvChars n (recvChars n cs) = recvChars n cs := by
  induction cs generalizing n with
  | nil => rfl
  | cons c t ih =>
    simp only [recvChars]
    by_cases h1 : c.utf8Size ≤ n
    · simp only [h1, if_true, recvChars, ih]
    · simp only [h1, if_false]
      by_cases h2 : 0 < n
      · simp only [h2, if_true]
        have hs : ('�').utf8Size = 3 := by decide
        simp only [recvChars, hs]
        by_cases h3 : 3 ≤ n
        · simp [h3]
        · simp [h3, h2]
      · simp [h2, recvChars]

/-- Every character of the truncated text is a character of the original or
the replacement character U+FFFD. -/
theorem recvChars_mem (n : Nat) (cs : List Char) :
    ∀ c ∈ recvChars n cs, c ∈ cs ∨ c = '�' := by
  induction cs generalizing n with
  | nil => intro c hc; simp [recvChars] at hc
  | cons d t ih =>
    intro c hc
    simp only [recvChars] at hc
    by_cases h1 : d.utf8Size ≤ n
    · simp only [h1, if_true, List.mem_cons] at hc
      rcases hc with rfl | hc
      · exact Or.inl (List.mem_cons_self _ _)
      · rcases ih _ c hc with h | h
        · exact Or.inl (List.mem_cons_of_mem _ h)
        · exact Or.inr h
    · simp only [h1, if_false] at hc
      by_cases h2 : 0 < n
      · simp only [h2, if_true, List.mem_singleton] at hc
        exact Or.inr hc
      · simp [h2] at hc

/-! ## Model of `serde_json::from_str::<Value>` on the protocol's records

The wire format of this protocol is a flat JSON object whose values are
strings and unsigned integers.  The decoder below models serde_json's
strict JSON parsing on that fragment: whitespace, flat objects, string
literals (with the basic escapes, raw control characters rejected),
unsigned decimal numbers, and rejection of trailing input.  JSON features
the protocol never produces (nested values, arrays, booleans, null,
floats, negative numbers) are rejected; no datagram considered in the
theorems below uses them. -/

inductive Tok where
  | lbrace | rbrace | colon | comma
  | str (s : List Char)
  | num (n : Nat)
deriving DecidableEq

/-- Scanner mode: top level, inside a string literal (accumulated content,
reversed), right after a backslash in a string, or inside a number. -/
inductive TkMode where
  | normal
  | instr (acc : List Char)
  | inesc (acc : List Char)
  | innum (v : Nat)
deriving DecidableEq

def isWsChar (c : Char) : Bool := c = ' ' || c = '\n' || c = '\t' || c = '\r'

/-- Character-level JSON scanner (single pass, structurally recursive). -/
def tokGo : TkMode → List Tok → List Char → Option (List Tok)
  | .normal, toks, [] => some toks.reverse
  | .normal, toks, c :: rest =>
    if c = '\x7b' then tokGo .normal (.lbrace :: toks) rest
    else if c = '\x7d' then tokGo .normal (.rbrace :: toks) rest
    else if c = ':' then tokGo .normal (.colon :: toks) rest
    else if c = ',' then tokGo .normal (.comma :: toks) rest
    else if c = '\"' then tokGo (.instr []) toks rest
    else if isWsChar c then tokGo .normal toks rest
    else if isDigitChar c then tokGo (.innum (c.toNat - 48)) toks rest
    else none
  | .instr _, _, [] => none
  | .instr acc, toks, c :: rest =>
    if c = '\"' then tokGo .normal (.str acc.reverse :: toks) rest
    else if c = '\\' then tokGo (.inesc acc) toks rest
    else if c.toNat < 32 then none
    else tokGo (.instr (c :: acc)) toks rest
  | .inesc _, _, [] => none
  | .inesc acc, toks, c :: rest =>
    if c = '\"' then tokGo (.instr ('\"' :: acc)) toks rest
    else if c = '\\' then tokGo (.instr ('\\' :: acc)) toks rest
    else if c = '/' then tokGo (.instr ('/' :: acc)) toks rest
    else if c = 'n' then tokGo (.instr ('\n' :: acc)) toks rest
    else if c = 't' then tokGo (.instr ('\t' :: acc)) toks rest
    else if c = 'r' then tokGo (.instr ('\r' :: acc)) toks rest
    else none
  | .innum v, toks, [] => some (Tok.num v :: toks).reverse
  | .innum v, toks, c :: rest =>
    if isDigitChar c then tokGo (.innum (v * 10 + (c.toNat - 48))) toks rest
    else if c = ',' then tokGo .normal (.comma :: .num v :: toks) rest
    else if c = '\x7d' then tokGo .normal (.rbrace :: .num v :: toks) rest
    else if isWsChar c then tokGo .normal (.num v :: toks) rest
    else none

def tokenize (cs : List Char) : Option (List Tok) := tokGo .normal [] cs

/-- JSON values of the fragment (strings, unsigned numbers, flat objects). -/
inductive JVal where
  | jstr (s : List Char)
  | jnum (n : Nat)
  | jobj (fields : List (List Char × JVal))

def tokVal : Tok → Option JVal
  | .str s => some (.jstr s)
  | .num n => some (.jnum n)
  | _ => none

/-- Parse `key : value` fields up to and including the closing brace. -/
def parseFieldsTok : List Tok → Option (List (List Char × JVal) × List Tok)
  | .str k :: .colon :: v :: rest =>
    match tokVal v with
    | none => none
    | some val =>
      match rest with
      | .rbrace :: r2 => some ([(k, val)], r2)
      | .comma :: r2 =>
        match parseFieldsTok r2 with
        | none => none
        | some (fs, r3) => some ((k, val) :: fs, r3)
      | _ => none
  | _ => none

/-- Top-level parse; the whole token stream must be consumed
(serde_json rejects trailing input). -/
def parseTop : List Tok → Option JVal
  | [.str s] => some (.jstr s)
  | [.num n] => some (.jnum n)
  | [.lbrace, .rbrace] => some (.jobj [])
  | .lbrace :: rest =>
    match parseFieldsTok rest with
    | some (fs, []) => some (.jobj fs)
    | _ => none
  | _ => none

def parseJson (cs : List Char) : Option JVal :=
  match tokenize cs with
  | none => none
  | some toks => parseTop toks

/-- `Value::get(k)`: last binding wins, as in serde_json's map, whose
`insert` during parsing overwrites earlier duplicate keys. -/
def objGet (j : JVal) (k : List Char) : Option JVal :=
  match j with
  | .jobj fs => ((fs.reverse).find? (fun p => decide (p.1 = k))).map (·.2)
  | _ => none

/-- `Value::as_str`. -/
def jAsStr : Option JVal → Option (List Char)
  | some (.jstr s) => some s
  | _ => none

/-- `Value::as_u64`: defined exactly on unsigned integers below `2^64`. -/
def jAsU64 : Option JVal → Option Nat
  | some (.jnum n) => if n < 2 ^ 64 then some n else none
  | _ => none

/-! ## Wire record and client-side classification

Mirrors the receive path of `examples/client_multi_discovery.rs`:
parse the datagram as JSON, extract the four fields
(`service` str, `ip` str, `port` u64, `key` str), then compare the key
with the configured expected key. -/

def serviceKey : List Char := ['s', 'e', 'r', 'v', 'i', 'c', 'e']
def ipKey : List Char := ['i', 'p']
def portKey : List Char := ['p', 'o', 'r', 't']
def keyKey : List Char := ['k', 'e', 'y']

/-- The client's `ServerInfo` struct. -/
structure ServerInfo where
  service : List Char
  ip : List Char
  port : Nat
  key : List Char
deriving DecidableEq

/-- Outcome of decoding one datagram, following the nested match in the
client: JSON parse failure, a missing/mistyped field, a complete record
with a non-matching key, or a complete record with the expected key. -/
inductive MsgClass where
  | valid (info : ServerInfo)
  | badKey (info : ServerInfo)
  | incomplete
  | nonJson
deriving DecidableEq

def classify (expectedKey : List Char) (payload : List Char) : MsgClass :=
  match parseJson payload with
  | none => .nonJson
  | some j =>
    match jAsStr (objGet j serviceKey), jAsStr (objGet j ipKey),
        jAsU64 (objGet j portKey), jAsStr (objGet j keyKey) with
    | some s, some i, some p, some k =>
      if k = expectedKey then .valid ⟨s, i, p, k⟩ else .badKey ⟨s, i, p, k⟩
    | _, _, _, _ => .incomplete

/-! ## The announcement text

`format!("{{\n  \"service\": \"{}\",\n  \"ip\": \"{}\",\n  \"port\": {},\n  \"key\": \"{}\"\n}}", service_name, local_ip, port, shared_key)`
in `udp_broadcast.rs` (identical in the periodic, limited and respond-only
paths). -/

def tplA : List Char :=
  ['\x7b', '\n', ' ', ' ', '\"', 's', 'e', 'r', 'v', 'i', 'c', 'e', '\"', ':', ' ', '\"']
def tplB : List Char :=
  ['\"', ',', '\n', ' ', ' ', '\"', 'i', 'p', '\"', ':', ' ', '\"']
def tplC : List Char :=
  ['\"', ',', '\n', ' ', ' ', '\"', 'p', 'o', 'r', 't', '\"', ':', ' ']
def tplD : List Char :=
  [',', '\n', ' ', ' ', '\"', 'k', 'e', 'y', '\"', ':', ' ', '\"']
def tplE : List Char := ['\"', '\n', '\x7d']

def encodeAnnouncement (service ip : List Char) (port : Nat) (key : List Char) :
    List Char :=
  tplA ++ service ++ tplB ++ ip ++ tplC ++ natChars port ++ tplD ++ key ++ tplE

/-! ## The multi-server discovery client (`examples/client_multi_discovery.rs`)

One run's state: the `servers: HashMap<String, ServerInfo>` keyed by
`"ip:port"` (modelled as an association list with key-based lookup), the
`invalid_servers` counter, and the trace of per-datagram classification
messages the loop prints. -/

/-- The per-datagram console classifications of the client loop, in the
order the code's `println!` calls distinguish them. -/
inductive RunEvent where
  | recordAdded (id : List Char)
  | duplicateResp (id : List Char)
  | invalidKeyResp
  | missingFields
  | nonJsonResp
deriving DecidableEq

structure RunState where
  servers : List (List Char × ServerInfo)
  invalid : Nat
  events : List RunEvent
deriving DecidableEq

def initState : RunState := ⟨[], 0, []⟩

/-- `format!("{}:{}", ip, port)`. -/
def serverIdOf (info : ServerInfo) : List Char :=
  info.ip ++ ':' :: natChars info.port

def lookupSrv (m : List (List Char × ServerInfo)) (k : List Char) :
    Option ServerInfo :=
  (m.find? (fun p => decide (p.1 = k))).map (·.2)

/-- `servers.contains_key(&server_id)`. -/
def hasKeyL (m : List (List Char × ServerInfo)) (k : List Char) : Bool :=
  (lookupSrv m k).isSome

/-- One iteration body of the client receive loop, applied to the decoded
datagram text. -/
def processDatagram (expectedKey : List Char) (st : RunState)
    (payload : List Char) : RunState :=
  match classify expectedKey payload with
  | .valid info =>
    let sid := serverIdOf info
    if hasKeyL st.servers sid then
      { st with events := .duplicateResp sid :: st.events }
    else
      { servers := (sid, info) :: st.servers, invalid := st.invalid,
        events := .recordAdded sid :: st.events }
  | .badKey _ =>
    { st with invalid := st.invalid + 1, events := .invalidKeyResp :: st.events }
  | .incomplete => { st with events := .missingFields :: st.events }
  | .nonJson => { st with events := .nonJsonResp :: st.events }

/-- Receive one raw datagram: read it through the fixed 1024-byte buffer
(`let mut buf = [0; 1024]`), lossily decode, then run the loop body. -/
def receiveAndProcess (expectedKey : List Char) (st : RunState)
    (raw : List Char) : RunState :=
  processDatagram expectedKey st (recvChars 1024 raw)

/-- What `socket.recv_from` yields to one loop iteration. -/
inductive NetIn where
  | datagram (raw : List Char)
  | timeoutErr
  | otherErr
deriving DecidableEq

inductive LoopExit where
  | timedOut
  | aborted
deriving DecidableEq

/-- The client receive loop over a sequence of socket results: datagrams are
processed; a `WouldBlock`/`TimedOut` error breaks the loop (timeout path);
any other error also breaks the loop after logging.  `none` exit means the
input sequence ran out with the loop still blocked on `recv_from`. -/
def runLoop (expectedKey : List Char) (st : RunState) :
    List NetIn → RunState × Option LoopExit
  | [] => (st, none)
  | .datagram raw :: rest =>
    runLoop expectedKey (receiveAndProcess expectedKey st raw) rest
  | .timeoutErr :: _ => (st, some .timedOut)
  | .otherErr :: _ => (st, some .aborted)

/-- What `main` hands back after the loop: the record map and invalid
counter (the printed summary), the loop exit kind, and whether `main`
returns an `Err` to its caller.  After the loop breaks — on either exit
path — the code falls through to the summary and ends in `Ok(())`, so
`isErr` is `false`. -/
structure DiscoverOutcome where
  servers : List (List Char × ServerInfo)
  invalid : Nat
  events : List RunEvent
  exit : Option LoopExit
  isErr : Bool
deriving DecidableEq

def discoverMain (expectedKey : List Char) (ins : List NetIn) : DiscoverOutcome :=
  let r := runLoop expectedKey initState ins
  ⟨r.1.servers, r.1.invalid, r.1.events, r.2, false⟩

def countDupEvents (es : List RunEvent) : Nat :=
  es.countP (fun e => match e with | .duplicateResp _ => true | _ => false)

def countAddedEvents (es : List RunEvent) : Nat :=
  es.countP (fun e => match e with | .recordAdded _ => true | _ => false)

/-! ## Local IP selection (`get_local_ip` in `udp_broadcast.rs`) -/

structure Ip4 where
  a : Nat
  b : Nat
  c : Nat
  d : Nat
deriving DecidableEq

/-- Rust `Ipv4Addr::is_loopback`: first octet 127. -/
def ip4Loopback (ip : Ip4) : Bool := ip.a = 127

/-- Rust `Ipv4Addr::is_multicast`: first octet in 224..=239. -/
def ip4Multicast (ip : Ip4) : Bool := 224 ≤ ip.a && ip.a ≤ 239

/-- `Ipv4Addr::to_string` (dotted quad). -/
def ip4String (ip : Ip4) : List Char :=
  natChars ip.a ++ '.' :: natChars ip.b ++ '.' :: natChars ip.c ++
    '.' :: natChars ip.d

inductive IfAddr where
  | v4 (ip : Ip4)
  | v6
deriving DecidableEq

structure NetItf where
  name : List Char
  addr : List IfAddr

/-- `itf.name.starts_with("lo") || itf.name.starts_with("docker")`. -/
def virtualName (n : List Char) : Bool :=
  startsList ['l', 'o'] n || startsList ['d', 'o', 'c', 'k', 'e', 'r'] n

/-- Inner loop of `get_local_ip`: first V4 address that is neither
loopback nor multicast. -/
def findV4 : List IfAddr → Option Ip4
  | [] => none
  | .v4 ip :: rest =>
    if !ip4Loopback ip && !ip4Multicast ip then some ip else findV4 rest
  | .v6 :: rest => findV4 rest

def get_local_ip : List NetItf → Option (List Char)
  | [] => none
  | itf :: rest =>
    if !virtualName itf.name then
      match findV4 itf.addr with
      | some ip => some (ip4String ip)
      | none => get_local_ip rest
    else get_local_ip rest

def lo127 : List Char := ['1', '2', '7', '.', '0', '.', '0', '.', '1']

/-- `get_local_ip().unwrap_or_else(|| "127.0.0.1".to_string())`, the shared
expression of all three announcement modes. -/
def publishedIp (itfs : List NetItf) : List Char :=
  (get_local_ip itfs).getD lo127

/-! ## Server-side announcement traces (`udp_broadcast.rs`) -/

/-- Observable actions of the announcement engine / responder. -/
inductive SrvAct where
  | send (payload : List Char)
  | sleepSec (n : Nat)
  | unicast (dst : Nat) (payload : List Char)
deriving DecidableEq

/-- The first `n` iterations of `announce_server_periodic`'s infinite loop
(each iteration sends the announcement, then sleeps `interval`). -/
def announce_server_periodic_iters (itfs : List NetItf) (port : Nat)
    (service key : List Char) (interval : Nat) (n : Nat) : List SrvAct :=
  let localIp := publishedIp itfs
  let ann := encodeAnnouncement service localIp port key
  ((List.range n).map (fun _ => [SrvAct.send ann, SrvAct.sleepSec interval])).flatten

/-- Full trace of `announce_server_limited`: `for i in 1..=max_count`,
send, and sleep only when `i < max_count`. -/
def announce_server_limited (itfs : List NetItf) (port : Nat)
    (service key : List Char) (interval : Nat) (maxCount : Nat) : List SrvAct :=
  let localIp := publishedIp itfs
  let ann := encodeAnnouncement service localIp port key
  ((List.range maxCount).map (fun j =>
    SrvAct.send ann ::
      (if j + 1 < maxCount then [SrvAct.sleepSec interval] else []))).flatten

/-- The trigger test of `respond_to_discovery_requests`:
`request.contains("DISCOVER") || request.contains("discover")` on the
lossily-decoded buffer contents. -/
def discoverUpper : List Char := ['D', 'I', 'S', 'C', 'O', 'V', 'E', 'R']
def discoverLower : List Char := ['d', 'i', 's', 'c', 'o', 'v', 'e', 'r']

def containsTrigger (request : List Char) : Bool :=
  containsSub discoverUpper request || containsSub discoverLower request

/-- One iteration of the responder loop on an inbound datagram `raw` from
source address `src`: read through the 1024-byte buffer, test the trigger,
and unicast the (startup-built) response back to `src` if it matches. -/
def respond_to_discovery_step (itfs : List NetItf) (port : Nat)
    (service key : List Char) (src : Nat) (raw : List Char) : List SrvAct :=
  let localIp := publishedIp itfs
  let response := encodeAnnouncement service localIp port key
  let request := recvChars 1024 raw
  if containsTrigger request then [SrvAct.unicast src response] else []

/-! ## Claim C6: the Limited announcement mode -/

def isSendAct : SrvAct → Bool
  | .send _ => true
  | _ => false

def countSends (tr : List SrvAct) : Nat := tr.countP isSendAct

theorem periodic_iters_succ (itfs : List NetItf) (port : Nat)
    (service key : List Char) (interval n : Nat) :
    announce_server_periodic_iters itfs port service key interval (n + 1)
      = announce_server_periodic_iters itfs port service key interval n ++
        [SrvAct.send (encodeAnnouncement service (publishedIp itfs) port key),
         SrvAct.sleepSec interval] := by
  simp [announce_server_periodic_iters, List.range_succ]

theorem periodic_iters_length (itfs : List NetItf) (port : Nat)
    (service key : List Char) (interval n : Nat) :
    (announce_server_periodic_iters itfs port service key interval n).length
      = 2 * n := by
  induction n with
  | zero => rfl
  | succ m ih =>
    rw [periodic_iters_succ]
    simp [ih]
    omega

theorem periodic_iters_sends (itfs : List NetItf) (port : Nat)
    (service key : List Char) (interval n : Nat) :
    countSends (announce_server_periodic_iters itfs port service key interval n)
      = n := by
  induction n with
  | zero => rfl
  | succ m ih =>
    rw [periodic_iters_succ]
    simp [countSends, List.countP_append] at ih ⊢
    simp [ih, List.countP_cons, isSendAct]

theorem limited_succ (itfs : List NetItf) (port : Nat)
    (service key : List Char) (interval m : Nat) :
    announce_server_limited itfs port service key interval (m + 1)
      = announce_server_periodic_iters itfs port service key interval m ++
        [SrvAct.send (encodeAnnouncement service (publishedIp itfs) port key)] := by
  simp only [announce_server_limited, announce_server_periodic_iters,
    List.range_succ, List.map_append, List.flatten_append]
  congr 1
  · congr 1
    apply List.map_congr_left
    intro j hj
    have hj' : j + 1 < m + 1 := by
      have := List.mem_range.mp hj
      omega
    simp [hj']
  · simp

/-- C6: `Limited(interval, max_count)` performs exactly `max_count` send
iterations of the same loop body as Periodic mode (its trace is the
`2*max_count - 1`-action prefix of the periodic trace, i.e. it sleeps only
between sends, with no trailing sleep: the last action of a nonempty run
is a send), and `Limited(1s, 3)` sends exactly 3 announcements. -/
theorem C6_limited_mode (itfs : List NetItf) (port : Nat)
    (service key : List Char) (interval maxCount : Nat) :
    countSends (announce_server_limited itfs port service key interval maxCount)
        = maxCount
    ∧ announce_server_limited itfs port service key interval maxCount
        = (announce_server_periodic_iters itfs port service key interval
            maxCount).take (2 * maxCount - 1)
    ∧ (1 ≤ maxCount →
        (announce_server_limited itfs port service key interval maxCount).getLast?
          = some (SrvAct.send
              (encodeAnnouncement service (publishedIp itfs) port key)))
    ∧ countSends (announce_server_limited itfs port service key 1 3) = 3 := by
  have hsends : ∀ iv m, countSends
      (announce_server_limited itfs port service key iv m) = m := by
    intro iv m
    cases m with
    | zero => rfl
    | succ m' =>
      rw [limited_succ]
      simp only [countSends, List.countP_append, List.countP_cons, isSendAct,
        List.countP_nil]
      have := periodic_iters_sends itfs port service key iv m'
      simp only [countSends] at this
      simp [this]
  refine ⟨hsends interval maxCount, ?_, ?_, hsends 1 3⟩
  · cases maxCount with
    | zero => rfl
    | succ m' =>
      rw [limited_succ, periodic_iters_succ]
      have hlen := periodic_iters_length itfs port service key interval m'
      have h1 : 2 * (m' + 1) - 1 =
          (announce_server_periodic_iters itfs port service key interval
            m').length + 1 := by omega
      rw [h1, List.take_append]
      rfl
  · intro h
    cases maxCount with
    | zero => omega
    | succ m' =>
      rw [limited_succ]
      simp

/-! ## Client loop lemmas (claims C1–C5) -/

theorem lookupSrv_none_all (m : List (List Char × ServerInfo)) (k : List Char)
    (h : lookupSrv m k = none) : ∀ p ∈ m, p.1 ≠ k := by
  intro p hp
  unfold lookupSrv at h
  cases hf : m.find? (fun q => decide (q.1 = k)) with
  | some q => rw [hf] at h; simp at h
  | none =>
    have := List.find?_eq_none.mp hf p hp
    simpa using this

theorem classify_badKey_ne (ek p : List Char) (info : ServerInfo)
    (h : classify ek p = .badKey info) : info.key ≠ ek := by
  unfold classify at h
  split at h
  · simp at h
  · split at h
    · split at h
      · simp at h
      · simp only [MsgClass.badKey.injEq] at h
        subst h
        simp_all
    · simp at h

theorem hasKeyL_false_lookup (m : List (List Char × ServerInfo)) (k : List Char)
    (h : hasKeyL m k = false) : lookupSrv m k = none := by
  unfold hasKeyL at h
  cases hl : lookupSrv m k with
  | none => rfl
  | some _ => rw [hl] at h; simp at h

theorem process_nodup (key : List Char) (st : RunState) (p : List Char)
    (h : (st.servers.map Prod.fst).Nodup) :
    (((processDatagram key st p).servers).map Prod.fst).Nodup := by
  cases hcl : classify key p with
  | valid info =>
    by_cases hk : hasKeyL st.servers (serverIdOf info) = true
    · simp [processDatagram, hcl, hk, h]
    · have hkf : hasKeyL st.servers (serverIdOf info) = false := by simpa using hk
      simp only [processDatagram, hcl, hkf, Bool.false_eq_true, if_false,
        List.map_cons, List.nodup_cons]
      refine ⟨?_, h⟩
      intro hmem
      rcases List.mem_map.mp hmem with ⟨q, hq, hq1⟩
      exact lookupSrv_none_all _ _ (hasKeyL_false_lookup _ _ hkf) q hq hq1
  | badKey info => simp [processDatagram, hcl, h]
  | incomplete => simp [processDatagram, hcl, h]
  | nonJson => simp [processDatagram, hcl, h]

theorem process_lookup_mono (key : List Char) (st : RunState) (p e : List Char)
    (info : ServerInfo) (h : lookupSrv st.servers e = some info) :
    lookupSrv (processDatagram key st p).servers e = some info := by
  cases hcl : classify key p with
  | valid inf =>
    by_cases hk : hasKeyL st.servers (serverIdOf inf) = true
    · simpa [processDatagram, hcl, hk]
    · have hkf : hasKeyL st.servers (serverIdOf inf) = false := by simpa using hk
      have hne : serverIdOf inf ≠ e := by
        intro heq
        have := hasKeyL_false_lookup _ _ hkf
        rw [heq, h] at this
        exact Option.noConfusion this
      simp only [processDatagram, hcl, hkf, Bool.false_eq_true, if_false]
      unfold lookupSrv at h ⊢
      rw [List.find?_cons_of_neg _ (by simpa using hne)]
      exact h
  | badKey inf => simpa [processDatagram, hcl]
  | incomplete => simpa [processDatagram, hcl]
  | nonJson => simpa [processDatagram, hcl]

theorem runLoop_lookup_mono (key : List Char) (ins : List NetIn) :
    ∀ (st : RunState) (e : List Char) (info : ServerInfo),
      lookupSrv st.servers e = some info →
      lookupSrv ((runLoop key st ins).1.servers) e = some info := by
  induction ins with
  | nil => intro st e info h; exact h
  | cons i rest ih =>
    intro st e info h
    cases i with
    | datagram raw =>
      exact ih _ _ _ (process_lookup_mono key st (recvChars 1024 raw) e info h)
    | timeoutErr => exact h
    | otherErr => exact h

theorem runLoop_nodup (key : List Char) (ins : List NetIn) :
    ∀ st : RunState, (st.servers.map Prod.fst).Nodup →
      (((runLoop key st ins).1.servers).map Prod.fst).Nodup := by
  induction ins with
  | nil => intro st h; exact h
  | cons i rest ih =>
    intro st h
    cases i with
    | datagram raw => exact ih _ (process_nodup key st (recvChars 1024 raw) h)
    | timeoutErr => exact h
    | otherErr => exact h

theorem countDup_cons_dup (id : List Char) (es : List RunEvent) :
    countDupEvents (.duplicateResp id :: es) = countDupEvents es + 1 := by
  simp [countDupEvents, List.countP_cons]

theorem fold_same_endpoint_dups (key e : List Char) (raws : List (List Char)) :
    ∀ st : RunState, hasKeyL st.servers e = true →
      (∀ r ∈ raws, ∃ info, classify key (recvChars 1024 r) = .valid info ∧
        serverIdOf info = e) →
      (List.foldl (receiveAndProcess key) st raws).servers = st.servers ∧
      (List.foldl (receiveAndProcess key) st raws).invalid = st.invalid ∧
      countDupEvents (List.foldl (receiveAndProcess key) st raws).events
        = countDupEvents st.events + raws.length ∧
      countAddedEvents (List.foldl (receiveAndProcess key) st raws).events
        = countAddedEvents st.events := by
  induction raws with
  | nil => intro st h _; simp
  | cons r rest ih =>
    intro st hk hall
    obtain ⟨info, hcls, hid⟩ := hall r (List.mem_cons_self r rest)
    have hstep : receiveAndProcess key st r =
        { st with events := .duplicateResp e :: st.events } := by
      unfold receiveAndProcess processDatagram
      rw [hcls]
      dsimp only
      rw [hid]
      simp [hk]
    simp only [List.foldl_cons, hstep]
    have hk' : hasKeyL ({ st with
        events := RunEvent.duplicateResp e :: st.events } : RunState).servers e
        = true := hk
    obtain ⟨h1, h2, h3, h4⟩ := ih _ hk'
      (fun r hr => hall r (List.mem_cons_of_mem _ hr))
    refine ⟨h1, h2, ?_, ?_⟩
    · rw [h3]
      simp [countDup_cons_dup]
      omega
    · rw [h4]
      simp [countAddedEvents, List.countP_cons]

/-! ## Concrete sample datagrams used to instantiate the theorems -/

/-- `{"service":"a","ip":"b","port":1,"key":"K"}` -/
def validMsg : List Char :=
  ['\x7b', '\"', 's', 'e', 'r', 'v', 'i', 'c', 'e', '\"', ':', '\"', 'a', '\"',
   ',', '\"', 'i', 'p', '\"', ':', '\"', 'b', '\"',
   ',', '\"', 'p', 'o', 'r', 't', '\"', ':', '1',
   ',', '\"', 'k', 'e', 'y', '\"', ':', '\"', 'K', '\"', '\x7d']

/-- `{"service":"a","ip":"b","port":1,"key":"X"}` -/
def wrongKeyMsg : List Char :=
  ['\x7b', '\"', 's', 'e', 'r', 'v', 'i', 'c', 'e', '\"', ':', '\"', 'a', '\"',
   ',', '\"', 'i', 'p', '\"', ':', '\"', 'b', '\"',
   ',', '\"', 'p', 'o', 'r', 't', '\"', ':', '1',
   ',', '\"', 'k', 'e', 'y', '\"', ':', '\"', 'X', '\"', '\x7d']

/-- `{"service":"x"}` — parses as JSON but misses three fields. -/
def incompleteMsg : List Char :=
  ['\x7b', '\"', 's', 'e', 'r', 'v', 'i', 'c', 'e', '\"', ':', '\"', 'x', '\"', '\x7d']

/-- `notjson` — fails to parse. -/
def nonJsonMsg : List Char := ['n', 'o', 't', 'j', 's', 'o', 'n']

/-! ## Claim C1: endpoint uniqueness and duplicate handling -/

/-- C1: in every discovery run, (i) the record map never holds two
`ServerRecord`s with the same `"ip:port"` identity; (ii) a valid,
key-matching message from an endpoint already present leaves the map,
the invalid counter and all records unchanged and only logs a duplicate
classification; (iii) N ≥ 2 valid same-endpoint messages yield exactly 1
record, N−1 duplicate events and 1 record-added event; (iv) a record, once
inserted, is never mutated for the rest of the run. -/
theorem C1_endpoint_dedup (key : List Char) :
    (∀ ins : List NetIn,
        (((runLoop key initState ins).1.servers).map Prod.fst).Nodup)
    ∧ (∀ (st : RunState) (raw : List Char) (info : ServerInfo),
        classify key (recvChars 1024 raw) = .valid info →
        hasKeyL st.servers (serverIdOf info) = true →
        receiveAndProcess key st raw =
          { st with events := .duplicateResp (serverIdOf info) :: st.events })
    ∧ (∀ (raws : List (List Char)) (e : List Char), 2 ≤ raws.length →
        (∀ r ∈ raws, ∃ info, classify key (recvChars 1024 r) = .valid info ∧
            serverIdOf info = e) →
        (List.foldl (receiveAndProcess key) initState raws).servers.length = 1 ∧
        countDupEvents
            (List.foldl (receiveAndProcess key) initState raws).events
          = raws.length - 1 ∧
        countAddedEvents
            (List.foldl (receiveAndProcess key) initState raws).events = 1)
    ∧ (∀ (st : RunState) (ins : List NetIn) (e : List Char) (info : ServerInfo),
        lookupSrv st.servers e = some info →
        lookupSrv ((runLoop key st ins).1.servers) e = some info) := by
  refine ⟨?_, ?_, ?_, ?_⟩
  · intro ins
    exact runLoop_nodup key ins initState (by simp [initState])
  · intro st raw info hcl hk
    unfold receiveAndProcess processDatagram
    rw [hcl]
    dsimp only
    simp [hk]
  · intro raws e h2 hall
    cases raws with
    | nil => simp at h2
    | cons r rest =>
      obtain ⟨info, hcl, hid⟩ := hall r (List.mem_cons_self r rest)
      have hstep : receiveAndProcess key initState r =
          { servers := [(e, info)], invalid := 0,
            events := [.recordAdded e] } := by
        unfold receiveAndProcess processDatagram
        rw [hcl]
        dsimp only
        rw [hid]
        simp [initState, hasKeyL, lookupSrv]
      have hk1 : hasKeyL ([((e : List Char), info)]) e = true := by
        simp [hasKeyL, lookupSrv]
      simp only [List.foldl_cons, hstep]
      obtain ⟨h1, h2', h3, h4⟩ := fold_same_endpoint_dups key e rest
        { servers := [(e, info)], invalid := 0, events := [.recordAdded e] }
        hk1 (fun r hr => hall r (List.mem_cons_of_mem _ hr))
      refine ⟨by rw [h1]; rfl, ?_, ?_⟩
      · rw [h3]
        simp [countDupEvents]
      · rw [h4]
        simp [countAddedEvents]
  · intro st ins e info h
    exact runLoop_lookup_mono key ins st e info h

/-- Witness for C1: two identical valid announcements from endpoint
`"b:1"` leave one record, one duplicate event and one added event. -/
theorem C1_endpoint_dedup_witness :
    (List.foldl (receiveAndProcess ['K']) initState
        [validMsg, validMsg]).servers.length = 1 ∧
    countDupEvents (List.foldl (receiveAndProcess ['K']) initState
        [validMsg, validMsg]).events = 1 ∧
    countAddedEvents (List.foldl (receiveAndProcess ['K']) initState
        [validMsg, validMsg]).events = 1 := by
  have h := (C1_endpoint_dedup ['K']).2.2.1 [validMsg, validMsg] ['b', ':', '1']
    (by decide)
    (by
      intro r hr
      have hrv : r = validMsg := by
        rcases List.mem_cons.mp hr with h | h
        · exact h
        · simpa using h
      subst hrv
      exact ⟨⟨['a'], ['b'], 1, ['K']⟩, by decide, by decide⟩)
  exact ⟨h.1, by simpa using h.2.1, h.2.2⟩

/-! ## Claim C2: loop termination and error reporting -/

theorem runLoop_datagrams (key : List Char) (ds : List (List Char)) :
    ∀ (st : RunState) (tail : List NetIn),
      runLoop key st (ds.map NetIn.datagram ++ tail)
        = runLoop key (List.foldl (receiveAndProcess key) st ds) tail := by
  induction ds with
  | nil => intro st tail; rfl
  | cons d rest ih =>
    intro st tail
    simp only [List.map_cons, List.cons_append, runLoop, List.foldl_cons]
    exact ih _ tail

/-- C2 counterexample: a run whose receive fails with a non-timeout socket
error exits the loop, yet `main` still returns `Ok(())` — the failure is
not reported to the caller (only logged). -/
theorem C2_counterexample :
    (discoverMain ['K'] [NetIn.otherErr]).exit = some .aborted ∧
    (discoverMain ['K'] [NetIn.otherErr]).isErr = false := by decide

/-- C2 (amended): the receive loop terminates exactly when the receive
times out (the success path: the accumulated records are returned with no
error) or a non-timeout socket error occurs (the loop also exits early);
in both cases the run falls through to the summary and returns without an
error — the non-timeout abort is logged but not surfaced to the caller as
a failure. -/
theorem C2_loop_termination (key : List Char) (ds : List (List Char))
    (rest : List NetIn) (st : RunState) :
    runLoop key st (ds.map NetIn.datagram) =
      (List.foldl (receiveAndProcess key) st ds, none)
    ∧ runLoop key st (ds.map NetIn.datagram ++ NetIn.timeoutErr :: rest) =
      (List.foldl (receiveAndProcess key) st ds, some .timedOut)
    ∧ runLoop key st (ds.map NetIn.datagram ++ NetIn.otherErr :: rest) =
      (List.foldl (receiveAndProcess key) st ds, some .aborted)
    ∧ (discoverMain key
        (ds.map NetIn.datagram ++ NetIn.timeoutErr :: rest)).isErr = false
    ∧ (discoverMain key
        (ds.map NetIn.datagram ++ NetIn.otherErr :: rest)).isErr = false := by
  refine ⟨?_, ?_, ?_, rfl, rfl⟩
  · have := runLoop_datagrams key ds st []
    simpa using this
  · exact runLoop_datagrams key ds st (NetIn.timeoutErr :: rest)
  · exact runLoop_datagrams key ds st (NetIn.otherErr :: rest)

/-! ## Claim C3: malformed (non-JSON) datagrams -/

/-- C3 counterexample: a non-parseable datagram is classified as non-JSON
but increments no counter of the run — the run state carries no malformed
counter at all, and the invalid counter stays 0. -/
theorem C3_counterexample :
    classify ['K'] (recvChars 1024 nonJsonMsg) = .nonJson ∧
    (receiveAndProcess ['K'] initState nonJsonMsg).invalid = 0 ∧
    (receiveAndProcess ['K'] initState nonJsonMsg).servers = [] ∧
    (receiveAndProcess ['K'] initState nonJsonMsg).events = [.nonJsonResp] := by
  decide

/-- C3 (amended): the run reports only the records and the invalid count;
a datagram whose payload fails to parse yields no ServerRecord and
increments no counter — it is only logged. -/
theorem C3_malformed_no_count (expectedKey : List Char) (st : RunState)
    (raw : List Char)
    (h : classify expectedKey (recvChars 1024 raw) = .nonJson) :
    (receiveAndProcess expectedKey st raw).servers = st.servers ∧
    (receiveAndProcess expectedKey st raw).invalid = st.invalid ∧
    (receiveAndProcess expectedKey st raw).events = .nonJsonResp :: st.events := by
  refine ⟨?_, ?_, ?_⟩ <;> simp [receiveAndProcess, processDatagram, h]

theorem C3_malformed_no_count_witness :
    (receiveAndProcess ['K'] initState nonJsonMsg).servers = [] ∧
    (receiveAndProcess ['K'] initState nonJsonMsg).invalid = 0 := by
  have h := C3_malformed_no_count ['K'] initState nonJsonMsg (by decide)
  exact ⟨by rw [h.1]; rfl, by rw [h.2.1]; rfl⟩

/-! ## Claim C4: incomplete records -/

/-- C4 counterexample: a datagram that parses as JSON but misses fields is
classified incomplete, yet the invalid counter stays 0 — the code does not
count incomplete messages, contrary to the claim. -/
theorem C4_counterexample :
    classify ['K'] (recvChars 1024 incompleteMsg) = .incomplete ∧
    (receiveAndProcess ['K'] initState incompleteMsg).invalid = 0 := by decide

/-- C4 (amended): a datagram that parses as structured text but misses or
mistypes one of the four fields yields no ServerRecord and is only logged;
it does not change the invalid counter (only key mismatches do). -/
theorem C4_incomplete_no_count (expectedKey : List Char) (st : RunState)
    (raw : List Char)
    (h : classify expectedKey (recvChars 1024 raw) = .incomplete) :
    (receiveAndProcess expectedKey st raw).servers = st.servers ∧
    (receiveAndProcess expectedKey st raw).invalid = st.invalid ∧
    (receiveAndProcess expectedKey st raw).events = .missingFields :: st.events := by
  refine ⟨?_, ?_, ?_⟩ <;> simp [receiveAndProcess, processDatagram, h]

theorem C4_incomplete_no_count_witness :
    (receiveAndProcess ['K'] initState incompleteMsg).servers = [] ∧
    (receiveAndProcess ['K'] initState incompleteMsg).invalid = 0 := by
  have h := C4_incomplete_no_count ['K'] initState incompleteMsg (by decide)
  exact ⟨by rw [h.1]; rfl, by rw [h.2.1]; rfl⟩

/-! ## Claim C5: key mismatch -/

/-- C5: a complete message whose key differs from the configured expected
key never yields a ServerRecord, and increments the invalid counter by
exactly 1. -/
theorem C5_key_mismatch (expectedKey : List Char) (st : RunState)
    (raw : List Char) (info : ServerInfo)
    (h : classify expectedKey (recvChars 1024 raw) = .badKey info) :
    (receiveAndProcess expectedKey st raw).servers = st.servers ∧
    (receiveAndProcess expectedKey st raw).invalid = st.invalid + 1 ∧
    (receiveAndProcess expectedKey st raw).events = .invalidKeyResp :: st.events ∧
    info.key ≠ expectedKey := by
  refine ⟨?_, ?_, ?_, classify_badKey_ne _ _ _ h⟩ <;>
    simp [receiveAndProcess, processDatagram, h]

theorem C5_key_mismatch_witness :
    (receiveAndProcess ['K'] initState wrongKeyMsg).servers = [] ∧
    (receiveAndProcess ['K'] initState wrongKeyMsg).invalid = 1 := by
  have h := C5_key_mismatch ['K'] initState wrongKeyMsg
    ⟨['a'], ['b'], 1, ['X']⟩ (by decide)
  exact ⟨by rw [h.1]; rfl, by rw [h.2.1]; rfl⟩

/-- Witness for C6 (the Limited-mode theorem has a `1 ≤ maxCount`
hypothesis). -/
theorem C6_limited_mode_witness :
    countSends (announce_server_limited [] 80 ['a'] ['k'] 1 3) = 3 ∧
    (announce_server_limited [] 80 ['a'] ['k'] 1 3).getLast?
      = some (SrvAct.send (encodeAnnouncement ['a'] (publishedIp []) 80 ['k'])) :=
  ⟨(C6_limited_mode [] 80 ['a'] ['k'] 1 3).1,
   (C6_limited_mode [] 80 ['a'] ['k'] 1 3).2.2.1 (by decide)⟩

/-! ## Claim C7: the responder's trigger test -/

/-- C7: the responder unicasts a freshly built announcement back to the
sender's observed address if and only if the decoded payload contains the
discovery-request token as a substring, in either its fixed-case form
`DISCOVER` or its lowercase form `discover`; any other datagram produces
no reply. -/
theorem C7_responder_trigger (itfs : List NetItf) (port : Nat)
    (service key : List Char) (src : Nat) (raw : List Char) :
    (respond_to_discovery_step itfs port service key src raw ≠ [] ↔
      (∃ a b, recvChars 1024 raw = a ++ discoverUpper ++ b) ∨
      (∃ a b, recvChars 1024 raw = a ++ discoverLower ++ b))
    ∧ (respond_to_discovery_step itfs port service key src raw ≠ [] →
        respond_to_discovery_step itfs port service key src raw
          = [SrvAct.unicast src
              (encodeAnnouncement service (publishedIp itfs) port key)]) := by
  have hiff : containsTrigger (recvChars 1024 raw) = true ↔
      (∃ a b, recvChars 1024 raw = a ++ discoverUpper ++ b) ∨
      (∃ a b, recvChars 1024 raw = a ++ discoverLower ++ b) := by
    unfold containsTrigger
    rw [Bool.or_eq_true, containsSub_iff, containsSub_iff]
  cases htr : containsTrigger (recvChars 1024 raw) with
  | false =>
    have hresp : respond_to_discovery_step itfs port service key src raw = [] := by
      unfold respond_to_discovery_step
      simp [htr]
    rw [hresp]
    refine ⟨⟨fun hne => absurd rfl hne, fun hr => ?_⟩, fun hne => absurd rfl hne⟩
    have := hiff.mpr hr
    rw [htr] at this
    exact Bool.noConfusion this
  | true =>
    have hresp : respond_to_discovery_step itfs port service key src raw
        = [SrvAct.unicast src
            (encodeAnnouncement service (publishedIp itfs) port key)] := by
      unfold respond_to_discovery_step
      simp [htr]
    rw [hresp]
    exact ⟨⟨fun _ => hiff.mp htr, fun _ => by simp⟩, fun _ => rfl⟩

theorem C7_responder_trigger_witness :
    respond_to_discovery_step [] 80 ['a'] ['k'] 5 discoverUpper
      = [SrvAct.unicast 5 (encodeAnnouncement ['a'] (publishedIp []) 80 ['k'])] := by
  have h := C7_responder_trigger [] 80 ['a'] ['k'] 5 discoverUpper
  exact h.2 (h.1.mpr (Or.inl ⟨[], [], by decide⟩))

/-! ## Claim C8: local IP selection and fallback -/

/-- Spec-side qualification of one interface address: an IPv4 address that
is neither loopback nor multicast. -/
def goodV4 : IfAddr → Option Ip4
  | .v4 ip => if !ip4Loopback ip && !ip4Multicast ip then some ip else none
  | .v6 => none

/-- All qualifying addresses, in interface order: addresses of interfaces
whose names do not start with `lo` or `docker`. -/
def qualifiedIps (itfs : List NetItf) : List Ip4 :=
  (itfs.filter (fun i => !virtualName i.name)).flatMap
    (fun i => i.addr.filterMap goodV4)

theorem findV4_eq (l : List IfAddr) : findV4 l = (l.filterMap goodV4).head? := by
  induction l with
  | nil => rfl
  | cons a rest ih =>
    cases a with
    | v4 ip =>
      by_cases hg : (!ip4Loopback ip && !ip4Multicast ip) = true
      · simp [findV4, hg, List.filterMap_cons, goodV4]
      · have hg' : (!ip4Loopback ip && !ip4Multicast ip) = false := by
          simpa using hg
        simp [findV4, hg', List.filterMap_cons, goodV4, ih]
    | v6 => simpa [findV4, List.filterMap_cons, goodV4] using ih

theorem get_local_ip_eq (itfs : List NetItf) :
    get_local_ip itfs = (qualifiedIps itfs).head?.map ip4String := by
  induction itfs with
  | nil => rfl
  | cons itf rest ih =>
    have h0 : get_local_ip (itf :: rest)
        = if (!virtualName itf.name) = true then
            (match findV4 itf.addr with
             | some ip => some (ip4String ip)
             | none => get_local_ip rest)
          else get_local_ip rest := rfl
    have hflt : qualifiedIps (itf :: rest)
        = if (!virtualName itf.name) = true then
            itf.addr.filterMap goodV4 ++ qualifiedIps rest
          else qualifiedIps rest := by
      unfold qualifiedIps
      rw [List.filter_cons]
      by_cases hv : (!virtualName itf.name) = true
      · simp [hv]
      · simp [hv]
    cases hv : virtualName itf.name with
    | true =>
      rw [hv] at h0 hflt
      simp only [Bool.not_true, Bool.false_eq_true, if_false] at h0 hflt
      rw [h0, hflt, ih]
    | false =>
      rw [hv] at h0 hflt
      simp only [Bool.not_false, if_true] at h0 hflt
      rw [h0, hflt, findV4_eq]
      cases hq : itf.addr.filterMap goodV4 with
      | nil => simpa using ih
      | cons x xs => simp

/-- C8: `get_local_ip` returns exactly the first IPv4 address that is not
loopback and not multicast on an interface whose name does not start with
`lo` or `docker`; when no address qualifies, every announcement path
publishes the loopback fallback `127.0.0.1`. -/
theorem C8_local_ip_selection (itfs : List NetItf) (port : Nat)
    (service key : List Char) (interval n maxCount : Nat) (src : Nat)
    (raw : List Char) :
    get_local_ip itfs = (qualifiedIps itfs).head?.map ip4String
    ∧ (qualifiedIps itfs = [] →
        publishedIp itfs = lo127
        ∧ (∀ pay, SrvAct.send pay ∈
              announce_server_limited itfs port service key interval maxCount →
            pay = encodeAnnouncement service lo127 port key)
        ∧ (∀ pay, SrvAct.send pay ∈
              announce_server_periodic_iters itfs port service key interval n →
            pay = encodeAnnouncement service lo127 port key)
        ∧ (∀ act ∈ respond_to_discovery_step itfs port service key src raw,
            act = SrvAct.unicast src
              (encodeAnnouncement service lo127 port key))) := by
  refine ⟨get_local_ip_eq itfs, ?_⟩
  intro hq
  have hnone : get_local_ip itfs = none := by
    rw [get_local_ip_eq, hq]
    rfl
  have hp : publishedIp itfs = lo127 := by
    unfold publishedIp
    rw [hnone]
    rfl
  refine ⟨hp, ?_, ?_, ?_⟩
  · intro pay hmem
    unfold announce_server_limited at hmem
    rw [hp] at hmem
    rcases List.mem_flatten.mp hmem with ⟨s, hs, hx⟩
    rcases List.mem_map.mp hs with ⟨j, _, rfl⟩
    rcases List.mem_cons.mp hx with h | h
    · exact (SrvAct.send.injEq _ _).mp h.symm ▸ rfl
    · by_cases hcond : j + 1 < maxCount
      · simp [hcond] at h
      · simp [hcond] at h
  · intro pay hmem
    unfold announce_server_periodic_iters at hmem
    rw [hp] at hmem
    rcases List.mem_flatten.mp hmem with ⟨s, hs, hx⟩
    rcases List.mem_map.mp hs with ⟨j, _, rfl⟩
    rcases List.mem_cons.mp hx with h | h
    · exact (SrvAct.send.injEq _ _).mp h.symm ▸ rfl
    · simp at h
  · intro act hmem
    unfold respond_to_discovery_step at hmem
    rw [hp] at hmem
    by_cases hc : containsTrigger (recvChars 1024 raw) = true
    · simp only [hc, if_true, List.mem_singleton] at hmem
      exact hmem
    · simp only [hc] at hmem
      simp at hmem

theorem C8_local_ip_selection_witness :
    publishedIp [⟨['l', 'o'], [IfAddr.v4 ⟨127, 0, 0, 1⟩]⟩] = lo127 :=
  ((C8_local_ip_selection [⟨['l', 'o'], [IfAddr.v4 ⟨127, 0, 0, 1⟩]⟩]
    80 ['a'] ['k'] 1 1 1 5 ['D']).2 (by decide)).1

/-! ## Claim C9: encode/decode round trip -/

/-- A character that the announcement embeds verbatim in a JSON string
literal and that serde_json accepts there unescaped: not a double quote,
not a backslash, and not a control character (below U+0020). -/
def jsonPlain (c : Char) : Bool :=
  decide (c ≠ '\"') && decide (c ≠ '\\') && decide (32 ≤ c.toNat)

theorem isDigitChar_bounds (c : Char) (h : isDigitChar c = true) :
    48 ≤ c.toNat ∧ c.toNat ≤ 57 := by
  simpa [isDigitChar] using h

/-- Scanning plain string content inside a string literal accumulates it
(reversed) and consumes it entirely. -/
theorem instr_content (content : List Char)
    (hsafe : ∀ c ∈ content, jsonPlain c = true) :
    ∀ (acc : List Char) (toks : List Tok) (rest : List Char),
      tokGo (.instr acc) toks (content ++ rest)
        = tokGo (.instr (content.reverse ++ acc)) toks rest := by
  induction content with
  | nil => intro acc toks rest; simp
  | cons c t ih =>
    intro acc toks rest
    have hc := hsafe c (List.mem_cons_self c t)
    simp only [jsonPlain, Bool.and_eq_true, decide_eq_true_eq] at hc
    obtain ⟨⟨h1, h2⟩, h3⟩ := hc
    have h3' : ¬ c.toNat < 32 := by omega
    simp only [List.cons_append, tokGo, h1, h2, h3', if_false, List.append_eq]
    rw [ih (fun d hd => hsafe d (List.mem_cons_of_mem _ hd))]
    simp

/-- Scanning a digit run in number mode accumulates its value. -/
theorem innum_digits (ds : List Char)
    (hds : ∀ c ∈ ds, isDigitChar c = true) :
    ∀ (v : Nat) (toks : List Tok) (rest : List Char),
      tokGo (.innum v) toks (ds ++ rest)
        = tokGo (.innum (digitFold v ds)) toks rest := by
  induction ds with
  | nil => intro v toks rest; simp [digitFold]
  | cons c t ih =>
    intro v toks rest
    have hc := hds c (List.mem_cons_self c t)
    simp only [List.cons_append, tokGo, hc, if_true, List.append_eq]
    rw [ih (fun d hd => hds d (List.mem_cons_of_mem _ hd))]
    simp [digitFold]

theorem digit_step_normal (c : Char) (hc : isDigitChar c = true)
    (toks : List Tok) (rest : List Char) :
    tokGo .normal toks (c :: rest) = tokGo (.innum (c.toNat - 48)) toks rest := by
  obtain ⟨h48, h57⟩ := isDigitChar_bounds c hc
  have hne : ∀ d : Char, (d.toNat < 48 ∨ 57 < d.toNat) → c ≠ d := by
    intro d hd h
    subst h
    omega
  have hws : isWsChar c = false := by
    simp [isWsChar, hne ' ' (by decide), hne '\n' (by decide),
      hne '\t' (by decide), hne '\r' (by decide)]
  simp only [tokGo, hne '\x7b' (by decide), hne '\x7d' (by decide),
    hne ':' (by decide), hne ',' (by decide), hne '\"' (by decide),
    hws, hc, if_true, if_false, Bool.false_eq_true]

/-- Scanning a nonempty digit run from top level produces its value in
number mode. -/
theorem number_run (ds : List Char) (hne : ds ≠ [])
    (hds : ∀ c ∈ ds, isDigitChar c = true) (toks : List Tok) (rest : List Char) :
    tokGo .normal toks (ds ++ rest) = tokGo (.innum (digitFold 0 ds)) toks rest := by
  cases ds with
  | nil => exact absurd rfl hne
  | cons c t =>
    rw [List.cons_append, digit_step_normal c (hds c (List.mem_cons_self c t)),
      innum_digits t (fun d hd => hds d (List.mem_cons_of_mem _ hd))]
    congr 1
    simp [digitFold]

theorem tplA_step (toks : List Tok) (r : List Char) :
    tokGo .normal toks (tplA ++ r)
      = tokGo (.instr []) (.colon :: .str serviceKey :: .lbrace :: toks) r := rfl

theorem tplB_step (acc : List Char) (toks : List Tok) (r : List Char) :
    tokGo (.instr acc) toks (tplB ++ r)
      = tokGo (.instr [])
          (.colon :: .str ipKey :: .comma :: .str acc.reverse :: toks) r := rfl

theorem tplC_step (acc : List Char) (toks : List Tok) (r : List Char) :
    tokGo (.instr acc) toks (tplC ++ r)
      = tokGo .normal
          (.colon :: .str portKey :: .comma :: .str acc.reverse :: toks) r := rfl

theorem tplD_step (v : Nat) (toks : List Tok) (r : List Char) :
    tokGo (.innum v) toks (tplD ++ r)
      = tokGo (.instr [])
          (.colon :: .str keyKey :: .comma :: .num v :: toks) r := rfl

theorem tplE_step (acc : List Char) (toks : List Tok) :
    tokGo (.instr acc) toks tplE
      = some ((Tok.rbrace :: Tok.str acc.reverse :: toks).reverse) := rfl

/-- The announcement token stream: the scanner recovers the three string
fields and the numeric port exactly. -/
theorem tokenize_announcement (s i k : List Char) (p : Nat)
    (hs : ∀ c ∈ s, jsonPlain c = true)
    (hi : ∀ c ∈ i, jsonPlain c = true)
    (hk : ∀ c ∈ k, jsonPlain c = true) :
    tokenize (encodeAnnouncement s i p k)
      = some [Tok.lbrace, .str serviceKey, .colon, .str s, .comma,
              .str ipKey, .colon, .str i, .comma,
              .str portKey, .colon, .num p, .comma,
              .str keyKey, .colon, .str k, .rbrace] := by
  obtain ⟨hnn, hdig, hfold⟩ := natChars_spec p
  unfold tokenize encodeAnnouncement
  simp only [List.append_assoc]
  rw [tplA_step, instr_content s hs, tplB_step, instr_content i hi, tplC_step,
    number_run (natChars p) hnn hdig, hfold, tplD_step, instr_content k hk,
    tplE_step]
  simp

theorem parseTop_announcement (s i k : List Char) (p : Nat) :
    parseTop [Tok.lbrace, .str serviceKey, .colon, .str s, .comma,
              .str ipKey, .colon, .str i, .comma,
              .str portKey, .colon, .num p, .comma,
              .str keyKey, .colon, .str k, .rbrace]
      = some (JVal.jobj [(serviceKey, .jstr s), (ipKey, .jstr i),
                         (portKey, .jnum p), (keyKey, .jstr k)]) := rfl

theorem announcement_get_service (s i k : List Char) (p : Nat) :
    jAsStr (objGet (JVal.jobj [(serviceKey, .jstr s), (ipKey, .jstr i),
        (portKey, .jnum p), (keyKey, .jstr k)]) serviceKey) = some s := rfl

theorem announcement_get_ip (s i k : List Char) (p : Nat) :
    jAsStr (objGet (JVal.jobj [(serviceKey, .jstr s), (ipKey, .jstr i),
        (portKey, .jnum p), (keyKey, .jstr k)]) ipKey) = some i := rfl

theorem announcement_get_port (s i k : List Char) (p : Nat) (h : p < 2 ^ 64) :
    jAsU64 (objGet (JVal.jobj [(serviceKey, .jstr s), (ipKey, .jstr i),
        (portKey, .jnum p), (keyKey, .jstr k)]) portKey) = some p := by
  show (if p < 2 ^ 64 then some p else none) = some p
  exact if_pos h

theorem announcement_get_key (s i k : List Char) (p : Nat) :
    jAsStr (objGet (JVal.jobj [(serviceKey, .jstr s), (ipKey, .jstr i),
        (portKey, .jnum p), (keyKey, .jstr k)]) keyKey) = some k := rfl

/-- C9 (amended): for every service name, shared key and published IP whose
characters are neither a double quote, a backslash, nor a control character
(below U+0020), and every port below 65536, if the encoded announcement is
at most 1024 bytes then the client parses it with all four fields recovered
exactly; hence with a matching expected key it is classified Valid. -/
theorem C9_roundtrip (s i k : List Char) (p : Nat)
    (hs : ∀ c ∈ s, jsonPlain c = true)
    (hi : ∀ c ∈ i, jsonPlain c = true)
    (hk : ∀ c ∈ k, jsonPlain c = true)
    (hp : p < 65536)
    (hlen : byteSize (encodeAnnouncement s i p k) ≤ 1024) :
    parseJson (recvChars 1024 (encodeAnnouncement s i p k))
      = some (JVal.jobj [(serviceKey, .jstr s), (ipKey, .jstr i),
                         (portKey, .jnum p), (keyKey, .jstr k)])
    ∧ classify k (recvChars 1024 (encodeAnnouncement s i p k))
      = .valid ⟨s, i, p, k⟩ := by
  rw [recvChars_all _ _ hlen]
  have hparse : parseJson (encodeAnnouncement s i p k)
      = some (JVal.jobj [(serviceKey, .jstr s), (ipKey, .jstr i),
                         (portKey, .jnum p), (keyKey, .jstr k)]) := by
    unfold parseJson
    rw [tokenize_announcement s i k p hs hi hk]
    exact parseTop_announcement s i k p
  refine ⟨hparse, ?_⟩
  unfold classify
  rw [hparse]
  dsimp only
  rw [announcement_get_service, announcement_get_ip,
    announcement_get_port s i k p (by omega), announcement_get_key]
  dsimp only
  rw [if_pos rfl]

/-- Witness for C9: a concrete announcement round-trips to a Valid
classification. -/
theorem C9_roundtrip_witness :
    classify ['K'] (recvChars 1024 (encodeAnnouncement ['a'] lo127 80 ['K']))
      = .valid ⟨['a'], lo127, 80, ['K']⟩ :=
  (C9_roundtrip ['a'] lo127 ['K'] 80 (by decide) (by decide) (by decide)
    (by decide) (by decide)).2

/-- C9 counterexample: the claim as stated requires only "no double quote
or backslash".  A service name containing a raw newline satisfies that,
the announcement is far below 1024 bytes, and the key matches — yet
serde_json rejects the raw control character inside the string literal,
so the message is classified non-JSON (malformed), not Valid. -/
theorem C9_counterexample :
    (∀ c ∈ ['a', '\n', 'b'], c ≠ '\"' ∧ c ≠ '\\') ∧
    byteSize (encodeAnnouncement ['a', '\n', 'b'] lo127 80 ['K']) ≤ 1024 ∧
    classify ['K']
        (recvChars 1024 (encodeAnnouncement ['a', '\n', 'b'] lo127 80 ['K']))
      = .nonJson := by decide

/-! ## Claim C10: the 1024-byte receive buffer -/

/-- When the byte budget cuts inside `xs`, nothing of `ys` is seen. -/
theorem recvChars_cut (n : Nat) (xs ys : List Char) (h : n < byteSize xs) :
    recvChars n (xs ++ ys) = recvChars n xs := by
  induction xs generalizing n with
  | nil => simp [byteSize] at h
  | cons c t ih =>
    rw [byteSize_cons] at h
    by_cases h1 : c.utf8Size ≤ n
    · simp only [List.cons_append, recvChars, h1, if_true, List.append_eq]
      rw [ih (n - c.utf8Size) (by omega)]
    · simp only [List.cons_append, recvChars, h1, if_false]

/-- The truncated text is a prefix of the original, possibly followed by a
single replacement character. -/
theorem recvChars_shape (n : Nat) (xs : List Char) :
    ∃ t r, xs = t ++ r ∧
      (recvChars n xs = t ∨ recvChars n xs = t ++ ['�']) := by
  induction xs generalizing n with
  | nil => exact ⟨[], [], rfl, Or.inl rfl⟩
  | cons c tl ih =>
    by_cases h1 : c.utf8Size ≤ n
    · obtain ⟨t, r, hsplit, hrec⟩ := ih (n - c.utf8Size)
      refine ⟨c :: t, r, by rw [hsplit]; rfl, ?_⟩
      rcases hrec with h | h
      · exact Or.inl (by simp [recvChars, h1, h])
      · exact Or.inr (by simp [recvChars, h1, h])
    · by_cases h2 : 0 < n
      · exact ⟨[], c :: tl, rfl, Or.inr (by simp [recvChars, h1, h2])⟩
      · exact ⟨[], c :: tl, rfl, Or.inl (by simp [recvChars, h1, h2])⟩

/-- A string literal that never closes: scanning plain content to the end
of input fails. -/
theorem instr_eof (content : List Char)
    (hsafe : ∀ c ∈ content, jsonPlain c = true)
    (acc : List Char) (toks : List Tok) :
    tokGo (.instr acc) toks content = none := by
  have h := instr_content content hsafe acc toks []
  rw [List.append_nil] at h
  rw [h]
  rfl

theorem number_eof (ds : List Char) (hne : ds ≠ [])
    (hds : ∀ c ∈ ds, isDigitChar c = true) (toks : List Tok) :
    tokGo .normal toks ds
      = some ((Tok.num (digitFold 0 ds) :: toks)).reverse := by
  have h := number_run ds hne hds toks []
  rw [List.append_nil] at h
  rw [h]
  rfl

theorem digit_jsonPlain (c : Char) (h : isDigitChar c = true) :
    jsonPlain c = true := by
  obtain ⟨h48, h57⟩ := isDigitChar_bounds c h
  have hne : ∀ d : Char, (d.toNat < 48 ∨ 57 < d.toNat) → c ≠ d := by
    intro d hd he
    subst he
    omega
  simp only [jsonPlain, Bool.and_eq_true, decide_eq_true_eq]
  exact ⟨⟨hne '\"' (by decide), hne '\\' (by decide)⟩, by omega⟩

/-- The announcement text is longer than 1024 bytes: the datagram is cut by
the fixed receive buffer and the remaining prefix no longer parses. -/
theorem truncated_announcement_malformed (s i k : List Char) (p : Nat)
    (hs : ∀ c ∈ s, jsonPlain c = true)
    (hi : ∀ c ∈ i, jsonPlain c = true)
    (hk : ∀ c ∈ k, jsonPlain c = true)
    (hover : 1024 < byteSize (encodeAnnouncement s i p k)) :
    parseJson (recvChars 1024 (encodeAnnouncement s i p k)) = none := by
  obtain ⟨hnn, hdig, -⟩ := natChars_spec p
  have hA : byteSize tplA = 16 := by decide
  have hB : byteSize tplB = 12 := by decide
  have hC : byteSize tplC = 13 := by decide
  have hD : byteSize tplD = 12 := by decide
  have hE : byteSize tplE = 3 := by decide
  unfold encodeAnnouncement at hover ⊢
  simp only [List.append_assoc] at hover ⊢
  simp only [byteSize_append, hA, hB, hC, hD, hE] at hover
  rw [recvChars_append 1024 tplA _ (by rw [hA]; omega), hA]
  have e1 : (1024 : Nat) - 16 = 1008 := by norm_num
  rw [e1]
  by_cases h1 : byteSize s ≤ 1008
  case neg =>
    -- cut inside the service string: unterminated string literal
    rw [recvChars_cut _ _ _ (by omega)]
    have hplain : ∀ c ∈ recvChars 1008 s, jsonPlain c = true := by
      intro c hc
      rcases recvChars_mem 1008 s c hc with h | h
      · exact hs c h
      · subst h; decide
    unfold parseJson tokenize
    rw [tplA_step, instr_eof _ hplain]
  rw [recvChars_append _ s _ h1]
  by_cases h2 : 1008 - byteSize s < 12
  case pos =>
    -- cut inside the `",\n  "ip": "` template
    obtain ⟨j, hj, hjlt⟩ : ∃ j, 1008 - byteSize s = j ∧ j < 12 :=
      ⟨_, rfl, by omega⟩
    rw [hj, recvChars_cut j tplB _ (by rw [hB]; omega)]
    unfold parseJson tokenize
    rw [tplA_step, instr_content s hs]
    interval_cases j <;> rfl
  rw [recvChars_append _ tplB _ (by omega), hB]
  by_cases h3 : byteSize i ≤ 1008 - byteSize s - 12
  case neg =>
    -- cut inside the ip string
    rw [recvChars_cut _ _ _ (by omega)]
    have hplain : ∀ c ∈ recvChars (1008 - byteSize s - 12) i, jsonPlain c = true := by
      intro c hc
      rcases recvChars_mem _ i c hc with h | h
      · exact hi c h
      · subst h; decide
    unfold parseJson tokenize
    rw [tplA_step, instr_content s hs, tplB_step, instr_eof _ hplain]
  rw [recvChars_append _ i _ h3]
  by_cases h4 : 1008 - byteSize s - 12 - byteSize i < 13
  case pos =>
    -- cut inside the `",\n  "port": ` template
    obtain ⟨j, hj, hjlt⟩ : ∃ j, 1008 - byteSize s - 12 - byteSize i = j ∧ j < 13 :=
      ⟨_, rfl, by omega⟩
    rw [hj, recvChars_cut j tplC _ (by rw [hC]; omega)]
    unfold parseJson tokenize
    rw [tplA_step, instr_content s hs, tplB_step, instr_content i hi]
    interval_cases j <;> rfl
  rw [recvChars_append _ tplC _ (by omega), hC]
  by_cases h5 : byteSize (natChars p) ≤ 1008 - byteSize s - 12 - byteSize i - 13
  case neg =>
    -- cut inside the digits of the port
    rw [recvChars_cut _ _ _ (by omega)]
    obtain ⟨t, r, hsplit, hrec⟩ :=
      recvChars_shape (1008 - byteSize s - 12 - byteSize i - 13) (natChars p)
    have htd : ∀ c ∈ t, isDigitChar c = true := by
      intro c hc
      exact hdig c (hsplit ▸ List.mem_append_left _ hc)
    unfold parseJson tokenize
    rw [tplA_step, instr_content s hs, tplB_step, instr_content i hi, tplC_step]
    rcases hrec with h | h <;> rw [h]
    · cases ht : t with
      | nil => rfl
      | cons d t' =>
        rw [← ht, number_eof t (by rw [ht]; simp) htd]
        rfl
    · cases ht : t with
      | nil => rfl
      | cons d t' =>
        rw [← ht, number_run t (by rw [ht]; simp) htd]
        rfl
  rw [recvChars_append _ (natChars p) _ h5]
  by_cases h6 : 1008 - byteSize s - 12 - byteSize i - 13 - byteSize (natChars p) < 12
  case pos =>
    -- cut inside the `,\n  "key": "` template
    obtain ⟨j, hj, hjlt⟩ : ∃ j,
        1008 - byteSize s - 12 - byteSize i - 13 - byteSize (natChars p) = j ∧
          j < 12 := ⟨_, rfl, by omega⟩
    rw [hj, recvChars_cut j tplD _ (by rw [hD]; omega)]
    unfold parseJson tokenize
    rw [tplA_step, instr_content s hs, tplB_step, instr_content i hi, tplC_step,
      number_run (natChars p) hnn hdig]
    interval_cases j <;> rfl
  rw [recvChars_append _ tplD _ (by omega), hD]
  by_cases h7 : byteSize k ≤
      1008 - byteSize s - 12 - byteSize i - 13 - byteSize (natChars p) - 12
  case neg =>
    -- cut inside the key string
    rw [recvChars_cut _ _ _ (by omega)]
    have hplain : ∀ c ∈ recvChars
        (1008 - byteSize s - 12 - byteSize i - 13 - byteSize (natChars p) - 12) k,
        jsonPlain c = true := by
      intro c hc
      rcases recvChars_mem _ k c hc with h | h
      · exact hk c h
      · subst h; decide
    unfold parseJson tokenize
    rw [tplA_step, instr_content s hs, tplB_step, instr_content i hi, tplC_step,
      number_run (natChars p) hnn hdig, tplD_step, instr_eof _ hplain]
  rw [recvChars_append _ k _ h7]
  -- cut inside the closing `"\n}` template
  obtain ⟨j, hj, hjlt⟩ : ∃ j,
      1008 - byteSize s - 12 - byteSize i - 13 - byteSize (natChars p) - 12 -
        byteSize k = j ∧ j < 3 := ⟨_, rfl, by omega⟩
  rw [hj]
  unfold parseJson tokenize
  rw [tplA_step, instr_content s hs, tplB_step, instr_content i hi, tplC_step,
    number_run (natChars p) hnn hdig, tplD_step, instr_content k hk]
  interval_cases j <;> rfl

theorem byteSize_replicate (n : Nat) (c : Char) :
    byteSize (List.replicate n c) = n * c.utf8Size := by
  induction n with
  | zero => simp [byteSize]
  | succ m ih =>
    rw [List.replicate_succ, byteSize_cons, ih]
    ring

/-- C10: every receive path reads a datagram through the fixed 1024-byte
buffer, so processing depends only on the first 1024 bytes of the payload:
(i) two datagrams with the same 1024-byte truncation are processed
identically by the client loop and by the responder; (ii) processing a
datagram equals processing its truncation; (iii) an otherwise valid
announcement (plain fields) whose encoding exceeds 1024 bytes is cut and
classified as non-JSON (malformed), not Valid. -/
theorem C10_buffer_truncation (expectedKey : List Char) (st : RunState)
    (itfs : List NetItf) (port : Nat) (service skey : List Char) (src : Nat) :
    (∀ raw raw', recvChars 1024 raw = recvChars 1024 raw' →
        receiveAndProcess expectedKey st raw
          = receiveAndProcess expectedKey st raw'
        ∧ respond_to_discovery_step itfs port service skey src raw
          = respond_to_discovery_step itfs port service skey src raw')
    ∧ (∀ raw, receiveAndProcess expectedKey st raw
        = receiveAndProcess expectedKey st (recvChars 1024 raw))
    ∧ (∀ (s i k : List Char) (p : Nat),
        (∀ c ∈ s, jsonPlain c = true) → (∀ c ∈ i, jsonPlain c = true) →
        (∀ c ∈ k, jsonPlain c = true) →
        1024 < byteSize (encodeAnnouncement s i p k) →
        classify expectedKey (recvChars 1024 (encodeAnnouncement s i p k))
          = .nonJson) := by
  refine ⟨?_, ?_, ?_⟩
  · intro raw raw' h
    constructor
    · unfold receiveAndProcess
      rw [h]
    · unfold respond_to_discovery_step
      rw [h]
  · intro raw
    unfold receiveAndProcess
    rw [recvChars_idem]
  · intro s i k p hs hi hk hover
    unfold classify
    rw [truncated_announcement_malformed s i k p hs hi hk hover]

/-- Witness for C10: a service name of 1200 `a`s makes the announcement
exceed the buffer; the truncated datagram is classified non-JSON. -/
theorem C10_buffer_truncation_witness :
    classify ['K'] (recvChars 1024
        (encodeAnnouncement (List.replicate 1200 'a') lo127 80 ['K']))
      = .nonJson := by
  have hover : 1024 < byteSize
      (encodeAnnouncement (List.replicate 1200 'a') lo127 80 ['K']) := by
    unfold encodeAnnouncement
    simp only [byteSize_append, byteSize_replicate]
    decide
  exact (C10_buffer_truncation ['K'] initState [] 80 ['a'] ['k'] 5).2.2
    (List.replicate 1200 'a') lo127 ['K'] 80
    (by
      intro c hc
      rw [List.eq_of_mem_replicate hc]
      decide)
    (by decide) (by decide) hover

end Rustnlp
